import Mathlib

/-!
Verification of the mc-hf sync core (path mapper, migration and symlink
engine, empty-directory tracker, sync daemon state machine) against its
natural-language specification.

Python strings are embedded as lists of characters (`PyStr`); the functions
below are direct translations of the corresponding CPython library routines
(`posixpath.join`, `posixpath.normpath`, `str.lstrip`, `str.strip`,
`str.split`) and of the repository functions in `sync/core/config.py`,
`sync/core/linker.py` and `sync/daemon.py`.
-/

abbrev PyStr := List Char

/-- Python `s.startswith("/")`: the first character is a slash. -/
def startsWithSlash (s : PyStr) : Bool :=
  match s with
  | [] => false
  | c :: _ => c == '/'

/-- Python `s.endswith("/")`: the last character is a slash. -/
def lastIsSlash (s : PyStr) : Bool :=
  match s.getLast? with
  | some c => c == '/'
  | none => false

/-- Python `os.path.join(a, b)` for POSIX paths (two arguments). -/
def pyJoin (a b : PyStr) : PyStr :=
  if startsWithSlash b then b
  else if a = [] ∨ lastIsSlash a then a ++ b
  else a ++ '/' :: b

/-- Number of leading slashes that `posixpath.normpath` preserves:
2 for exactly two leading slashes, 1 for one or three-and-more, 0 otherwise. -/
def initialSlashes (p : PyStr) : Nat :=
  match p with
  | [] => 0
  | c :: rest =>
    if c == '/' then
      match rest with
      | c2 :: rest2 => if c2 == '/' then (if startsWithSlash rest2 then 1 else 2) else 1
      | [] => 1
    else 0

/-- Python `path.split('/')` on character lists (keeps empty components). -/
def splitOnSlash : PyStr → List PyStr
  | [] => [[]]
  | '/' :: rest => [] :: splitOnSlash rest
  | c :: rest =>
    match splitOnSlash rest with
    | [] => [[c]]
    | g :: gs => (c :: g) :: gs

/-- Component normalisation loop of `posixpath.normpath`: drop empty and `.`
components, resolve `..` against the accumulated components (`acc` holds the
output in reverse order). -/
def normComps (hasRoot : Bool) (acc : List PyStr) : List PyStr → List PyStr
  | [] => acc.reverse
  | comp :: rest =>
    if comp = [] ∨ comp = ['.'] then normComps hasRoot acc rest
    else if comp ≠ ['.', '.'] ∨ (¬ hasRoot = true ∧ acc = []) ∨ acc.head? = some ['.', '.'] then
      normComps hasRoot (comp :: acc) rest
    else
      match acc with
      | [] => normComps hasRoot [] rest
      | _ :: acc2 => normComps hasRoot acc2 rest

/-- Python `os.path.normpath` for POSIX paths. -/
def pyNormpath (p : PyStr) : PyStr :=
  if p = [] then ['.']
  else
    let k := initialSlashes p
    let nc := normComps (0 < k) [] (splitOnSlash p)
    let res := List.replicate k '/' ++ List.intercalate ['/'] nc
    if res = [] then ['.'] else res

/-- Translation of `to_abs_under_base` (`sync/core/config.py`, lines 134-144):
a BASE-relative path becomes absolute; an already-absolute `rel` is returned
unchanged; when base is `/` the result is plain concatenation. -/
def to_abs_under_base (base rel : PyStr) : PyStr :=
  if startsWithSlash rel then rel
  else if base = ['/'] then '/' :: rel
  else pyNormpath (pyJoin base rel)

/-- Translation of `to_under_hist` (`sync/core/config.py`, lines 147-153):
strip leading slashes from `rel` and join under the history root, normalised. -/
def to_under_hist (hist rel : PyStr) : PyStr :=
  pyNormpath (pyJoin hist (rel.dropWhile (fun c => c = '/')))

/-- Convenience: Lean string literal to the Python-string embedding. -/
def pstr (s : String) : PyStr := s.toList

theorem startsWithSlash_append (a b : PyStr) (h : a ≠ []) :
    startsWithSlash (a ++ b) = startsWithSlash a := by
  cases a with
  | nil => exact absurd rfl h
  | cons c t => rfl

theorem initialSlashes_pos (p : PyStr) (h : startsWithSlash p = true) :
    0 < initialSlashes p := by
  cases p with
  | nil => simp [startsWithSlash] at h
  | cons c rest =>
    have hc : c = '/' := by simpa [startsWithSlash] using h
    subst hc
    cases rest with
    | nil => simp [initialSlashes]
    | cons c2 rest2 =>
      by_cases h2 : c2 = '/'
      · subst h2
        by_cases h3 : startsWithSlash rest2 = true
        · simp [initialSlashes, h3]
        · simp [initialSlashes, h3]
      · simp [initialSlashes, h2]

theorem startsWithSlash_replicate_append (k : Nat) (hk : 0 < k) (s : PyStr) :
    startsWithSlash (List.replicate k '/' ++ s) = true := by
  cases k with
  | zero => omega
  | succ m => simp [List.replicate, startsWithSlash]

theorem startsWithSlash_pyNormpath (p : PyStr) (h : startsWithSlash p = true) :
    startsWithSlash (pyNormpath p) = true := by
  have hne : p ≠ [] := by
    intro hnil; rw [hnil] at h; simp [startsWithSlash] at h
  have hk : 0 < initialSlashes p := initialSlashes_pos p h
  unfold pyNormpath
  rw [if_neg hne]
  have hres : startsWithSlash
      (List.replicate (initialSlashes p) '/' ++
        List.intercalate ['/'] (normComps (0 < initialSlashes p) [] (splitOnSlash p))) = true :=
    startsWithSlash_replicate_append _ hk _
  have hresne : (List.replicate (initialSlashes p) '/' ++
      List.intercalate ['/'] (normComps (0 < initialSlashes p) [] (splitOnSlash p))) ≠ [] := by
    intro hnil
    rw [hnil] at hres
    simp [startsWithSlash] at hres
  simp only [hresne, if_neg, ite_false]
  exact hres

theorem pyJoin_startsWithSlash (a b : PyStr) (ha : startsWithSlash a = true) :
    startsWithSlash (pyJoin a b) = true := by
  have hane : a ≠ [] := by
    intro hnil; rw [hnil] at ha; simp [startsWithSlash] at ha
  unfold pyJoin
  by_cases hb : startsWithSlash b = true
  · simp [hb]
  · simp only [hb, if_false, Bool.false_eq_true]
    by_cases hcase : a = [] ∨ lastIsSlash a = true
    · rw [if_pos hcase, startsWithSlash_append a b hane]; exact ha
    · rw [if_neg hcase, startsWithSlash_append a ('/' :: b) hane]; exact ha

/-- Claim C7 counterexample: neither path mapper is idempotent in general.
`to_under_hist "/h" "a" = "/h/a"` but re-applying gives `"/h/h/a"`; likewise
`to_abs_under_base "a" "b" = "a/b"` but re-applying gives `"a/a/b"`. -/
theorem c7_counterexample :
    to_under_hist (pstr "/h") (to_under_hist (pstr "/h") (pstr "a")) ≠
      to_under_hist (pstr "/h") (pstr "a") ∧
    to_abs_under_base (pstr "a") (to_abs_under_base (pstr "a") (pstr "b")) ≠
      to_abs_under_base (pstr "a") (pstr "b") := by
  constructor
  · decide
  · decide

/-- Claim C7 (amended): `to_abs_under_base base` is idempotent whenever the
base is an absolute path (in particular the production value `base = "/"`);
`to_under_hist` is not idempotent in general (re-applying prepends the history
root a second time, see the counterexample). Both functions are pure path
computations and touch no filesystem. -/
theorem c7_to_abs_under_base_idempotent_of_abs_base (base rel : PyStr)
    (hbase : startsWithSlash base = true) :
    to_abs_under_base base (to_abs_under_base base rel) = to_abs_under_base base rel := by
  by_cases hrel : startsWithSlash rel = true
  · simp [to_abs_under_base, hrel]
  · by_cases hb : base = ['/']
    · subst hb
      have h1 : to_abs_under_base ['/'] rel = '/' :: rel := by
        simp [to_abs_under_base, hrel]
      rw [h1]
      have h2 : startsWithSlash ('/' :: rel) = true := by simp [startsWithSlash]
      simp [to_abs_under_base, h2]
    · have hinner : to_abs_under_base base rel = pyNormpath (pyJoin base rel) := by
        simp [to_abs_under_base, hrel, hb]
      have hslash : startsWithSlash (pyNormpath (pyJoin base rel)) = true :=
        startsWithSlash_pyNormpath _ (pyJoin_startsWithSlash base rel hbase)
      rw [hinner]
      simp [to_abs_under_base, hslash]

/-- Claim C7 witness: the amended idempotence at the production base `/`. -/
theorem c7_witness :
    startsWithSlash (pstr "/") = true ∧
    to_abs_under_base (pstr "/") (to_abs_under_base (pstr "/") (pstr "home/user/data")) =
      to_abs_under_base (pstr "/") (pstr "home/user/data") :=
  ⟨by decide, c7_to_abs_under_base_idempotent_of_abs_base (pstr "/") (pstr "home/user/data") (by decide)⟩

/-!
Configuration defaults (`sync/core/config.py`, lines 16-44).  The process
environment is embedded as a partial map from variable names to values;
`environGet` is Python `os.environ.get(key, dflt)` and `environGetNone` is
the one-argument form `os.environ.get(key)` which yields `None` when unset.
-/

/-- Python `str.strip()` with no argument: remove leading and trailing
whitespace. -/
def pyStripWs (s : String) : String :=
  String.mk (((s.toList.dropWhile Char.isWhitespace).reverse.dropWhile Char.isWhitespace).reverse)

/-- Helper for `pySplitWs`: accumulate the current word (reversed) while
scanning. -/
def splitWsAux : List Char → List Char → List String
  | [], cur => if cur = [] then [] else [String.mk cur.reverse]
  | c :: rest, cur =>
    if c.isWhitespace then
      if cur = [] then splitWsAux rest []
      else String.mk cur.reverse :: splitWsAux rest []
    else splitWsAux rest (c :: cur)

/-- Python `str.split()` with no argument: split on whitespace runs,
dropping empty pieces. -/
def pySplitWs (s : String) : List String := splitWsAux s.toList []

/-- Python `os.environ.get(key, dflt)`. -/
def environGet (env : String → Option String) (key dflt : String) : String :=
  (env key).getD dflt

/-- Translation of `DEFAULT_BASE = os.environ.get("BASE", "/")`. -/
def DEFAULT_BASE (env : String → Option String) : String :=
  environGet env "BASE" "/"

/-- Translation of `DEFAULT_HIST_DIR` (`config.py` line 17). -/
def DEFAULT_HIST_DIR (env : String → Option String) : String :=
  environGet env "HIST_DIR" "/home/user/.astrbot-backup"

/-- Translation of `DEFAULT_BRANCH` (`config.py` line 18). -/
def DEFAULT_BRANCH (env : String → Option String) : String :=
  environGet env "GIT_BRANCH" "main"

/-- Translation of `DEFAULT_TARGETS` (`config.py` lines 22-33): the
`SYNC_TARGETS` variable with fallback `"data/"`, stripped and whitespace
split. -/
def DEFAULT_TARGETS (env : String → Option String) : List String :=
  pySplitWs (pyStripWs (environGet env "SYNC_TARGETS" "data/"))

/-- Translation of `GITHUB_PAT` lookup in `load_settings` (`config.py`
line 105). -/
def githubPatSetting (env : String → Option String) : String :=
  environGet env "GITHUB_PAT" ""

/-- Translation of `GITHUB_REPO` lookup in `load_settings` (`config.py`
line 106). -/
def githubRepoSetting (env : String → Option String) : String :=
  environGet env "GITHUB_REPO" ""

/-- Translation of the `SYNC_INTERVAL` lookup in `SyncDaemon.__init__`
(`sync/daemon.py` line 45): `os.environ.get("SYNC_INTERVAL", "180")`. -/
def syncIntervalSetting (env : String → Option String) : String :=
  environGet env "SYNC_INTERVAL" "180"

/-- Translation of `DEFAULT_EXCLUDES` (`config.py` lines 38-44):
`os.environ.get("EXCLUDE_PATHS",)` is called WITHOUT a fallback, so when the
variable is unset it returns `None` and the chained `.strip()` raises
`AttributeError`; evaluation of the module-level constant is therefore
fallible. -/
def DEFAULT_EXCLUDES (env : String → Option String) : Except String (List String) :=
  match env "EXCLUDE_PATHS" with
  | none => Except.error "AttributeError: NoneType object has no attribute strip"
  | some s => Except.ok (pySplitWs (pyStripWs s))

/-- Claim C9: in any environment in which `EXCLUDE_PATHS` is absent,
evaluating the module-level `DEFAULT_EXCLUDES` raises `AttributeError`
(so importing the config module or calling `load_settings` fails), while
every other configuration variable read by the core has a usable default:
in the empty environment `BASE` defaults to `/`, `HIST_DIR` to
`/home/user/.astrbot-backup`, `GIT_BRANCH` to `main`, `SYNC_TARGETS` to
`["data/"]`, `GITHUB_PAT` and `GITHUB_REPO` to the empty string and
`SYNC_INTERVAL` to `"180"`. -/
theorem c9_default_excludes_requires_env (env : String → Option String)
    (h : env "EXCLUDE_PATHS" = none) :
    DEFAULT_EXCLUDES env =
      Except.error "AttributeError: NoneType object has no attribute strip" ∧
    DEFAULT_BASE (fun _ => none) = "/" ∧
    DEFAULT_HIST_DIR (fun _ => none) = "/home/user/.astrbot-backup" ∧
    DEFAULT_BRANCH (fun _ => none) = "main" ∧
    DEFAULT_TARGETS (fun _ => none) = ["data/"] ∧
    githubPatSetting (fun _ => none) = "" ∧
    githubRepoSetting (fun _ => none) = "" ∧
    syncIntervalSetting (fun _ => none) = "180" := by
  refine ⟨?_, by decide, by decide, by decide, by decide, by decide, by decide, by decide⟩
  simp [DEFAULT_EXCLUDES, h]

/-- Claim C9 witness: the empty environment satisfies the hypothesis and the
conclusion concretely. -/
theorem c9_witness :
    DEFAULT_EXCLUDES (fun _ => none) =
      Except.error "AttributeError: NoneType object has no attribute strip" :=
  (c9_default_excludes_requires_env (fun _ => none) rfl).1

/-!
Filesystem model for the migration and symlink engine
(`sync/core/linker.py`).  A filesystem is a finite association list from
absolute paths (component lists) to nodes; directories are explicit entries,
regular files carry their content, symbolic links carry their target path.
`fsGet` is first-match lookup; the mutation primitives mirror the `os` /
`shutil` calls used by the engine.
-/

abbrev FPath := List String

inductive FNode where
  | file (data : String)
  | dir
  | link (target : FPath)
deriving DecidableEq, Repr

abbrev FS := List (FPath × FNode)

/-- Lookup of the node at a path (first matching entry). -/
def fsGet : FS → FPath → Option FNode
  | [], _ => none
  | e :: rest, p => if e.1 = p then some e.2 else fsGet rest p

/-- Remove every entry exactly at `p` (Python `os.unlink` / `os.remove`). -/
def fsErase : FS → FPath → FS
  | [], _ => []
  | e :: rest, p => if e.1 = p then fsErase rest p else e :: fsErase rest p

/-- Bind path `p` to node `n`, replacing any previous binding. -/
def fsSet (fs : FS) (p : FPath) (n : FNode) : FS :=
  (p, n) :: fsErase fs p

/-- Boolean path-extension test: `leads p q` holds when `q` lies in the
subtree rooted at `p` (including `q = p`). -/
def leads : FPath → FPath → Bool
  | [], _ => true
  | _ :: _, [] => false
  | a :: as, b :: bs => a = b ∧ leads as bs

/-- Python `shutil.rmtree(p)`: remove `p` and everything below it. -/
def rmtree : FS → FPath → FS
  | [], _ => []
  | e :: rest, p => if leads p e.1 = true then rmtree rest p else e :: rmtree rest p

/-- Python `os.path.exists`: the path resolves to an existing node
(a symbolic link is followed one level; a dangling link does not exist). -/
def pyExists (fs : FS) (p : FPath) : Bool :=
  match fsGet fs p with
  | none => false
  | some (FNode.link t) => (fsGet fs t).isSome
  | some _ => true

/-- All nonempty initial segments of a path, shortest first; these are the
directories `os.makedirs` creates on the way to `p`. -/
def heads : FPath → List FPath
  | [] => []
  | a :: rest => [a] :: (heads rest).map (fun q => a :: q)

/-- Whether `os.makedirs` tolerates the existing node at `a`: absent or a
directory. -/
def dirOrNone (fs : FS) (a : FPath) : Bool :=
  match fsGet fs a with
  | none => true
  | some FNode.dir => true
  | some _ => false

/-- Python `os.makedirs(p, exist_ok=True)`: create the missing directories
along `p`; raise `FileExistsError` (an `OSError` with errno `EEXIST`) when a
non-directory stands in the way. -/
inductive OSErr where
  | eperm
  | eacces
  | eexist
  | other
deriving DecidableEq, Repr

def makedirs (fs : FS) (p : FPath) : Except OSErr FS :=
  if (heads p).all (fun a => dirOrNone fs a) then
    Except.ok ((heads p).foldl (fun acc a => if fsGet acc a = none then fsSet acc a FNode.dir else acc) fs)
  else Except.error OSErr.eexist

/-- Direct children names of `p` present in the filesystem (Python
`os.listdir(p)`), in entry order. -/
def listdir (fs : FS) (p : FPath) : List String :=
  fs.filterMap (fun e =>
    if leads p e.1 = true ∧ e.1.length = p.length + 1 then e.1.getLast? else none)

theorem fsGet_fsErase (fs : FS) (p q : FPath) :
    fsGet (fsErase fs p) q = if q = p then none else fsGet fs q := by
  induction fs with
  | nil => simp [fsErase, fsGet]
  | cons e rest ih =>
    by_cases he : e.1 = p
    · rw [show fsErase (e :: rest) p = fsErase rest p by simp [fsErase, he]]
      rw [ih]
      by_cases hq : q = p
      · simp [hq]
      · have hne : ¬ e.1 = q := by rw [he]; exact fun hh => hq hh.symm
        simp [hq, fsGet, hne]
    · rw [show fsErase (e :: rest) p = e :: fsErase rest p by simp [fsErase, he]]
      by_cases heq : e.1 = q
      · have hq : ¬ q = p := by rw [← heq]; exact fun hh => he hh
        simp [fsGet, heq, hq]
      · simp only [fsGet, heq, if_false, ite_false]
        exact ih

theorem fsGet_fsSet (fs : FS) (p : FPath) (n : FNode) (q : FPath) :
    fsGet (fsSet fs p n) q = if q = p then some n else fsGet fs q := by
  unfold fsSet
  by_cases h : q = p
  · subst h; simp [fsGet]
  · have hne : ¬ p = q := fun hh => h hh.symm
    simp only [h, fsGet, hne, if_false, ite_false]
    rw [fsGet_fsErase]
    simp [h]

theorem fsGet_rmtree (fs : FS) (p q : FPath) :
    fsGet (rmtree fs p) q = if leads p q = true then none else fsGet fs q := by
  induction fs with
  | nil => simp [rmtree, fsGet]
  | cons e rest ih =>
    by_cases he : leads p e.1 = true
    · rw [show rmtree (e :: rest) p = rmtree rest p by simp [rmtree, he]]
      rw [ih]
      by_cases hq : leads p q = true
      · simp [hq]
      · have hne : ¬ e.1 = q := by
          intro hh; rw [hh] at he; exact hq he
        simp [hq, fsGet, hne]
    · rw [show rmtree (e :: rest) p = e :: rmtree rest p by simp [rmtree, he]]
      by_cases heq : e.1 = q
      · subst heq
        simp [fsGet, he]
      · simp only [fsGet, heq, if_false, ite_false]
        exact ih

theorem leads_refl (p : FPath) : leads p p = true := by
  induction p with
  | nil => rfl
  | cons a as ih => simp [leads, ih]

theorem leads_append (p r : FPath) : leads p (p ++ r) = true := by
  induction p with
  | nil => rfl
  | cons a as ih => simp [leads, ih]

theorem leads_iff_exists (p q : FPath) : leads p q = true ↔ ∃ r, q = p ++ r := by
  constructor
  · intro h
    induction p generalizing q with
    | nil => exact ⟨q, rfl⟩
    | cons a as ih =>
      cases q with
      | nil => simp [leads] at h
      | cons b bs =>
        simp only [leads, Bool.and_eq_true, decide_eq_true_eq] at h
        obtain ⟨hab, hrest⟩ := h
        obtain ⟨r, hr⟩ := ih bs (by simpa using hrest)
        exact ⟨r, by simp [hab, hr]⟩
  · rintro ⟨r, rfl⟩
    exact leads_append p r

theorem leads_length_le (p q : FPath) (h : leads p q = true) : p.length ≤ q.length := by
  obtain ⟨r, rfl⟩ := (leads_iff_exists p q).mp h
  simp

theorem leads_trans (p q r : FPath) (h1 : leads p q = true) (h2 : leads q r = true) :
    leads p r = true := by
  obtain ⟨u, rfl⟩ := (leads_iff_exists p q).mp h1
  obtain ⟨v, rfl⟩ := (leads_iff_exists (p ++ u) r).mp h2
  rw [List.append_assoc]
  exact leads_append p (u ++ v)

theorem leads_antisymm (p q : FPath) (h1 : leads p q = true) (h2 : leads q p = true) :
    p = q := by
  obtain ⟨u, rfl⟩ := (leads_iff_exists p q).mp h1
  have hle := leads_length_le _ _ h2
  rw [List.length_append] at hle
  have hu : u = [] := List.eq_nil_of_length_eq_zero (by omega)
  simp [hu]

theorem leads_comparable (p p2 q : FPath) (h1 : leads p q = true) (h2 : leads p2 q = true) :
    leads p p2 = true ∨ leads p2 p = true := by
  induction q generalizing p p2 with
  | nil =>
    cases p with
    | nil => left; rfl
    | cons a as => simp [leads] at h1
  | cons b bs ih =>
    cases p with
    | nil => left; rfl
    | cons a as =>
      cases p2 with
      | nil => right; rfl
      | cons c cs =>
        simp only [leads, Bool.and_eq_true, decide_eq_true_eq] at h1 h2
        obtain ⟨hab, h1x⟩ := h1
        obtain ⟨hcb, h2x⟩ := h2
        subst hab
        subst hcb
        rcases ih as cs (by simpa using h1x) (by simpa using h2x) with h | h
        · left; simp [leads, h]
        · right; simp [leads, h]

theorem leads_snoc_iff (p : FPath) (q : FPath) (h : leads p q = true)
    (hlen : q.length = p.length + 1) : ∃ m, q = p ++ [m] := by
  obtain ⟨r, rfl⟩ := (leads_iff_exists p q).mp h
  have hlen2 : p.length + r.length = p.length + 1 := by simpa using hlen
  have : r.length = 1 := by omega
  cases r with
  | nil => simp at this
  | cons m rest =>
    cases rest with
    | nil => exact ⟨m, rfl⟩
    | cons x xs => simp at this

theorem append_singleton_inj (p : FPath) (m n : String) (h : p ++ [m] = p ++ [n]) :
    m = n := by
  have h2 := List.append_inj_right h rfl
  simpa using h2

theorem leads_append_singleton_iff (p : FPath) (m n : String) :
    leads (p ++ [m]) (p ++ [n]) = true ↔ m = n := by
  constructor
  · intro h
    obtain ⟨r, hr⟩ := (leads_iff_exists _ _).mp h
    have hlen : r.length = 0 := by
      have h2 := congrArg List.length hr
      simp only [List.length_append, List.length_singleton] at h2
      omega
    have hrnil : r = [] := List.eq_nil_of_length_eq_zero hlen
    subst hrnil
    rw [List.append_nil] at hr
    exact (append_singleton_inj p n m hr).symm
  · rintro rfl
    exact leads_refl _

theorem heads_mem_leads (p : FPath) (a : FPath) (h : a ∈ heads p) : leads a p = true := by
  induction p generalizing a with
  | nil => simp [heads] at h
  | cons x rest ih =>
    simp only [heads, List.mem_cons, List.mem_map] at h
    rcases h with rfl | ⟨q, hq, rfl⟩
    · rw [leads_iff_exists]
      exact ⟨rest, rfl⟩
    · simp only [leads, Bool.and_eq_true, decide_eq_true_eq]
      exact ⟨by trivial, ih q hq⟩

theorem heads_mem_length (p : FPath) (a : FPath) (h : a ∈ heads p) :
    a.length ≤ p.length :=
  leads_length_le a p (heads_mem_leads p a h)

theorem heads_mem_ne_nil (p : FPath) (a : FPath) (h : a ∈ heads p) : a ≠ [] := by
  induction p generalizing a with
  | nil => simp [heads] at h
  | cons x rest ih =>
    simp only [heads, List.mem_cons, List.mem_map] at h
    rcases h with rfl | ⟨q, hq, rfl⟩ <;> simp

theorem heads_eq_dropLast (p : FPath) (h : p ≠ []) :
    heads p = heads p.dropLast ++ [p] := by
  induction p with
  | nil => exact absurd rfl h
  | cons a rest ih =>
    cases rest with
    | nil => simp [heads]
    | cons b bs =>
      have hne : (b :: bs) ≠ [] := by simp
      rw [show heads (a :: b :: bs) = [a] :: (heads (b :: bs)).map (fun q => a :: q) from rfl]
      rw [ih hne]
      simp [heads]

theorem makedirs_of_all_dirs (fs : FS) (p : FPath)
    (h : ∀ a ∈ heads p, fsGet fs a = some FNode.dir) :
    makedirs fs p = Except.ok fs := by
  unfold makedirs
  have hall : (heads p).all (fun a => dirOrNone fs a) = true := by
    rw [List.all_eq_true]
    intro a ha
    simp [dirOrNone, h a ha]
  rw [if_pos hall]
  congr 1
  have : ∀ (l : List FPath), (∀ a ∈ l, fsGet fs a = some FNode.dir) →
      l.foldl (fun acc a => if fsGet acc a = none then fsSet acc a FNode.dir else acc) fs = fs := by
    intro l
    induction l with
    | nil => intro _; rfl
    | cons a rest ih =>
      intro hl
      have ha := hl a (by simp)
      simp only [List.foldl_cons, ha]
      rw [if_neg (by simp [ha])]
      exact ih (fun b hb => hl b (by simp [hb]))
  exact this (heads p) h

theorem makedirs_apply_get (l : List FPath) (fs : FS) (q : FPath) :
    fsGet (l.foldl (fun acc a => if fsGet acc a = none then fsSet acc a FNode.dir else acc) fs) q =
      if q ∈ l ∧ fsGet fs q = none then some FNode.dir else fsGet fs q := by
  induction l generalizing fs with
  | nil => simp
  | cons a rest ih =>
    simp only [List.foldl_cons]
    by_cases ha : fsGet fs a = none
    · rw [if_pos ha, ih]
      by_cases hq : q = a
      · subst hq
        by_cases hr : q ∈ rest
        · simp [hr, fsGet_fsSet, ha]
        · simp [hr, fsGet_fsSet, ha]
      · rw [fsGet_fsSet]
        simp only [hq, ite_false, if_false]
        by_cases hr : q ∈ rest <;> simp [hr, hq]
    · rw [if_neg ha, ih]
      by_cases hq : q = a
      · subst hq
        by_cases hr : q ∈ rest <;> simp [hr, ha]
      · by_cases hr : q ∈ rest <;> simp [hr, hq]

theorem makedirs_of_dirOrNone (fs : FS) (p : FPath)
    (h : ∀ a ∈ heads p, dirOrNone fs a = true) :
    ∃ fs2, makedirs fs p = Except.ok fs2 ∧
      ∀ q, fsGet fs2 q = if q ∈ heads p ∧ fsGet fs q = none then some FNode.dir else fsGet fs q := by
  unfold makedirs
  rw [if_pos (List.all_eq_true.mpr h)]
  exact ⟨_, rfl, fun q => makedirs_apply_get (heads p) fs q⟩

theorem listdir_mem_iff (fs : FS) (p : FPath) (n : String) :
    n ∈ listdir fs p ↔ (fsGet fs (p ++ [n])).isSome = true := by
  induction fs with
  | nil => simp [listdir, fsGet]
  | cons e rest ih =>
    unfold listdir at ih ⊢
    by_cases hc : leads p e.1 = true ∧ e.1.length = p.length + 1
    · obtain ⟨m, hm⟩ := leads_snoc_iff p e.1 hc.1 hc.2
      have hfe : (if leads p e.1 = true ∧ e.1.length = p.length + 1
          then e.1.getLast? else none) = some m := by
        rw [if_pos hc, hm, List.getLast?_concat]
      rw [List.filterMap_cons, hfe]
      by_cases hmn : m = n
      · subst hmn
        have hg : fsGet (e :: rest) (p ++ [m]) = some e.2 := by
          simp [fsGet, hm]
        rw [hg]
        constructor
        · intro _
          rfl
        · intro _
          exact List.mem_cons_self _ _
      · have hne : ¬ e.1 = p ++ [n] := by
          rw [hm]
          intro hh
          exact hmn (append_singleton_inj p m n hh)
        have hg : fsGet (e :: rest) (p ++ [n]) = fsGet rest (p ++ [n]) := by
          simp [fsGet, hne]
        rw [hg, List.mem_cons]
        constructor
        · intro hcase
          rcases hcase with hnm | hmem
          · exact absurd hnm.symm hmn
          · exact ih.mp hmem
        · intro hh
          exact Or.inr (ih.mpr hh)
    · have hfe : (if leads p e.1 = true ∧ e.1.length = p.length + 1
          then e.1.getLast? else none) = none := if_neg hc
      rw [List.filterMap_cons, hfe]
      have hne : ¬ e.1 = p ++ [n] := by
        intro hh
        apply hc
        rw [hh]
        exact ⟨leads_append p [n], by simp⟩
      have hg : fsGet (e :: rest) (p ++ [n]) = fsGet rest (p ++ [n]) := by
        simp [fsGet, hne]
      rw [hg]
      exact ih

/-!
Migration and symlink engine (`sync/core/linker.py`).  Filesystem-changing
primitives that can fail with a permission error are parameterised by a
`SymEnv`: `symlinkFail p` is the `OSError` (if any) the operating system
raises when `os.symlink(_, p)` is attempted, `parentWritable p` is
`os.access(p, os.W_OK)`, and `rsyncAvail` is `shutil.which("rsync") is not
None`.
-/

structure SymEnv where
  symlinkFail : FPath → Option OSErr
  parentWritable : FPath → Bool
  rsyncAvail : Bool

/-- Attempt `os.symlink(dst, src)`: fails according to the environment,
otherwise binds `src` to a symbolic link to `dst`. -/
def symlinkOp (env : SymEnv) (fs : FS) (src dst : FPath) : Except OSErr FS :=
  match env.symlinkFail src with
  | some e => Except.error e
  | none => Except.ok (fsSet fs src (FNode.link dst))

/-- Translation of `ensure_symlink` (`linker.py` lines 28-59): create the
parent directories, keep an already-correct link, remove whatever else is at
`src`, then create the link (an `OSError` from `os.symlink` propagates). -/
def ensure_symlink (env : SymEnv) (fs : FS) (src dst : FPath) : Except OSErr FS := do
  let fs ← makedirs fs src.dropLast
  match fsGet fs src with
  | some (FNode.link cur) =>
    if cur = dst then Except.ok fs
    else symlinkOp env (fsErase fs src) src dst
  | some FNode.dir => symlinkOp env (rmtree fs src) src dst
  | some (FNode.file _) => symlinkOp env (fsErase fs src) src dst
  | none => symlinkOp env fs src dst

/-- Removal of one top-level entry, as in the clearing loops of
`_link_dir_contents_in_place` (`linker.py` lines 72-83 and 94-107):
directories are removed recursively, files and links unlinked. -/
def removeChild (fs : FS) (child : FPath) : FS :=
  match fsGet fs child with
  | some FNode.dir => rmtree fs child
  | some _ => fsErase fs child
  | none => fs

/-- Clearing of the top-level entries of `src` (`linker.py` lines 71-83);
the name list is the `list(os.listdir(src_dir))` snapshot. -/
def clearTop (fs : FS) (src : FPath) : FS :=
  (listdir fs src).foldl (fun acc n => removeChild acc (src ++ [n])) fs

/-- One iteration of the linking loop of `_link_dir_contents_in_place`
(`linker.py` lines 91-111): drop a leftover same-named entry, then create
the per-child symbolic link; a failure of the child link is logged and
swallowed. -/
def linkChild (env : SymEnv) (src dst : FPath) (acc : FS) (n : String) : FS :=
  let s := src ++ [n]
  let d := dst ++ [n]
  let acc2 := if (fsGet acc s).isSome then removeChild acc s else acc
  match env.symlinkFail s with
  | some _ => acc2
  | none => fsSet acc2 s (FNode.link d)

/-- Translation of `_link_dir_contents_in_place` (`linker.py` lines 62-111):
ensure `dst` exists, clear (or create) `src`, then symlink every top-level
entry of `dst` into `src`. -/
def link_dir_contents_in_place (env : SymEnv) (fs : FS) (src dst : FPath) :
    Except OSErr FS := do
  let fs ← makedirs fs dst
  let fs ← if fsGet fs src = some FNode.dir then Except.ok (clearTop fs src)
           else makedirs fs src
  Except.ok ((listdir fs dst).foldl (linkChild env src dst) fs)

/-- Entries strictly below `root`, re-rooted (their paths made relative). -/
def relUnder (root : FPath) (fs : FS) : List (FPath × FNode) :=
  fs.filterMap (fun e =>
    if leads root e.1 = true ∧ ¬ e.1 = root then some (e.1.drop root.length, e.2) else none)

/-- Model of the external `rsync -a src/ dst/` invocation (`linker.py` line
140): archive mode recursively replicates every entry under the source at
the same relative path under the destination, overwriting an existing
destination entry of the same name; destination-only entries are kept. -/
def rsyncMerge (fs : FS) (src dst : FPath) : FS :=
  (relUnder src fs).foldl (fun acc rn => fsSet acc (dst ++ rn.1) rn.2) fs

/-- Relative paths of the directories below `root` visited by `os.walk`. -/
def walkDirs (fs : FS) (root : FPath) : List FPath :=
  fs.filterMap (fun e =>
    if leads root e.1 = true ∧ ¬ e.1 = root ∧ e.2 = FNode.dir then
      some (e.1.drop root.length)
    else none)

/-- Relative paths and contents of the regular files below `root` visited by
`os.walk`. -/
def walkFiles (fs : FS) (root : FPath) : List (FPath × String) :=
  fs.filterMap (fun e =>
    match e.2 with
    | FNode.file c =>
      if leads root e.1 = true ∧ ¬ e.1 = root then some (e.1.drop root.length, c) else none
    | _ => none)

/-- Translation of the per-file merge copy (`linker.py` lines 142-151):
walk the live tree, re-create its directory skeleton under `dst`
(`os.makedirs(dstd, exist_ok=True)`) and copy each regular file only when
nothing exists at the destination path (`if not os.path.exists(t)`). -/
def perFileCopy (fs : FS) (src dst : FPath) : Except OSErr FS := do
  let fs ← makedirs fs dst
  let fs ← (walkDirs fs src).foldlM (fun acc r => makedirs acc (dst ++ r)) fs
  Except.ok ((walkFiles fs src).foldl (fun acc rc =>
    if pyExists acc (dst ++ rc.1) = true then acc
    else fsSet acc (dst ++ rc.1) (FNode.file rc.2)) fs)

/-- Directory branch of `migrate_and_link` (`linker.py` lines 136-165):
merge the live directory into history (rsync when available, else per-file
copy), delete the live directory and link it; a permission failure of the
link, or an unwritable parent, selects the per-child fallback, and any other
`OSError` propagates. -/
def migrateDirBranch (env : SymEnv) (fs : FS) (src dst : FPath) : Except OSErr FS := do
  let fs ← makedirs fs dst
  let fs ← if env.rsyncAvail then Except.ok (rsyncMerge fs src dst)
           else perFileCopy fs src dst
  let fs := rmtree fs src
  match ensure_symlink env fs src dst with
  | Except.ok fs2 => Except.ok fs2
  | Except.error e =>
    if e = OSErr.eperm ∨ e = OSErr.eacces ∨ env.parentWritable src.dropLast = false then
      link_dir_contents_in_place env fs src dst
    else Except.error e

/-- File branch of `migrate_and_link` (`linker.py` lines 166-174): move the
live file when the history path is absent, otherwise drop it; then link. -/
def migrateFileBranch (env : SymEnv) (fs : FS) (src dst : FPath) (c : String) :
    Except OSErr FS := do
  let fs ← if pyExists fs dst = true then Except.ok (fsErase fs src)
    else do
      let fs ← makedirs fs dst.dropLast
      Except.ok (fsSet (fsErase fs src) dst (FNode.file c))
  ensure_symlink env fs src dst

/-- Missing-path branch of `migrate_and_link` (`linker.py` lines 175-187):
materialise an empty directory or empty file at the history path, then
link. -/
def migrateMissingBranch (env : SymEnv) (fs : FS) (src dst : FPath) (relEndsSlash : Bool) :
    Except OSErr FS := do
  if relEndsSlash then do
    let fs ← makedirs fs dst
    ensure_symlink env fs src dst
  else do
    let fs ← makedirs fs dst.dropLast
    let fs := if pyExists fs dst = true then fs else fsSet fs dst (FNode.file "")
    ensure_symlink env fs src dst

/-- Translation of the per-target body of `migrate_and_link` (`linker.py`
lines 122-187), with `src`/`dst` the already-mapped live and history paths
and `relEndsSlash` the `rel.endswith("/")` test of the missing-path branch. -/
def migrate_target (env : SymEnv) (fs : FS) (src dst : FPath) (relEndsSlash : Bool) :
    Except OSErr FS := do
  let fs ← makedirs fs dst.dropLast
  match fsGet fs src with
  | some (FNode.link _) => ensure_symlink env fs src dst
  | some FNode.dir => migrateDirBranch env fs src dst
  | some (FNode.file c) => migrateFileBranch env fs src dst c
  | none => migrateMissingBranch env fs src dst relEndsSlash

/-- Node found at `p` in the final filesystem of a migration result
(`none` when the operation raised). -/
def resGet (r : Except OSErr FS) (p : FPath) : Option FNode :=
  match r with
  | Except.ok fs => fsGet fs p
  | Except.error _ => none

/-- Environment with rsync available and no permission failures. -/
def envRsync : SymEnv :=
  { symlinkFail := fun _ => none, parentWritable := fun _ => true, rsyncAvail := true }

/-- Environment without rsync and with no permission failures. -/
def envCopy : SymEnv :=
  { symlinkFail := fun _ => none, parentWritable := fun _ => true, rsyncAvail := false }

/-- Live directory holding `x` with content `live`, history directory already
holding `x` with content `hist`. -/
def fsC1 : FS :=
  [(["live"], FNode.dir), (["live", "x"], FNode.file "live"),
   (["hist"], FNode.dir), (["hist", "x"], FNode.file "hist")]

/-- Claim C1 failing input evaluated: on a same-name live/history file
collision the rsync merge path overwrites the history content with the live
content (`hist/x` becomes `live`), while the per-file copy path keeps the
history content (`hist/x` stays `hist`).  The two merge implementations
disagree, and the rsync path contradicts the non-destructive-merge
documentation of `linker.py` and the specification. -/
theorem c1_rsync_overwrites_history :
    resGet (migrate_target envRsync fsC1 ["live"] ["hist"] true) ["hist", "x"] =
      some (FNode.file "live") ∧
    resGet (migrate_target envCopy fsC1 ["live"] ["hist"] true) ["hist", "x"] =
      some (FNode.file "hist") ∧
    resGet (migrate_target envRsync fsC1 ["live"] ["hist"] true) ["live"] =
      some (FNode.link ["hist"]) := by
  refine ⟨?_, ?_, ?_⟩ <;> rfl

theorem bind_ok_reduce {α β : Type} (a : α) (f : α → Except OSErr β) :
    (Except.ok a >>= f) = f a := rfl

theorem pyExists_of_get_none (fs : FS) (p : FPath) (h : fsGet fs p = none) :
    pyExists fs p = false := by
  simp [pyExists, h]

/-- Claim C6: a Target whose live path is already a symbolic link to the
exact expected history path is reconciled without any filesystem mutation
(the run returns the filesystem unchanged), while a link pointing elsewhere
is unlinked and recreated pointing at the history path, leaving every other
path untouched. -/
theorem c6_link_idempotent_and_replace (env : SymEnv) (fs : FS) (src dst : FPath)
    (hDstParent : ∀ a ∈ heads dst.dropLast, fsGet fs a = some FNode.dir)
    (hSrcParent : ∀ a ∈ heads src.dropLast, fsGet fs a = some FNode.dir) :
    (fsGet fs src = some (FNode.link dst) →
      ∀ b, migrate_target env fs src dst b = Except.ok fs) ∧
    (∀ t, fsGet fs src = some (FNode.link t) → ¬ t = dst →
      env.symlinkFail src = none →
      ∀ b, ∃ fs2, migrate_target env fs src dst b = Except.ok fs2 ∧
        fsGet fs2 src = some (FNode.link dst) ∧
        ∀ q, ¬ q = src → fsGet fs2 q = fsGet fs q) := by
  have h1 : makedirs fs dst.dropLast = Except.ok fs :=
    makedirs_of_all_dirs _ _ hDstParent
  have h2 : makedirs fs src.dropLast = Except.ok fs :=
    makedirs_of_all_dirs _ _ hSrcParent
  constructor
  · intro hlink b
    have h3 : ensure_symlink env fs src dst = Except.ok fs := by
      unfold ensure_symlink
      rw [h2, bind_ok_reduce, hlink]
      simp
    unfold migrate_target
    rw [h1, bind_ok_reduce, hlink]
    exact h3
  · intro t hlink ht hok b
    have h3 : ensure_symlink env fs src dst =
        Except.ok (fsSet (fsErase fs src) src (FNode.link dst)) := by
      unfold ensure_symlink
      rw [h2, bind_ok_reduce, hlink]
      simp only [ht, if_false, ite_false]
      unfold symlinkOp
      rw [hok]
    refine ⟨fsSet (fsErase fs src) src (FNode.link dst), ?_, ?_, ?_⟩
    · unfold migrate_target
      rw [h1, bind_ok_reduce, hlink]
      exact h3
    · rw [fsGet_fsSet]
      simp
    · intro q hq
      rw [fsGet_fsSet, fsGet_fsErase]
      simp [hq]

/-- Claim C6 witness: a live path already linked to its history path is left
exactly as it is. -/
theorem c6_witness :
    migrate_target envCopy
      [(["a"], FNode.dir), (["h"], FNode.dir), (["a", "x"], FNode.link ["h", "x"])]
      ["a", "x"] ["h", "x"] false =
    Except.ok
      [(["a"], FNode.dir), (["h"], FNode.dir), (["a", "x"], FNode.link ["h", "x"])] :=
  (c6_link_idempotent_and_replace envCopy
    [(["a"], FNode.dir), (["h"], FNode.dir), (["a", "x"], FNode.link ["h", "x"])]
    ["a", "x"] ["h", "x"] (by decide) (by decide)).1 (by decide) false

/-- Claim C4: for a file-typed Target whose live path is a regular file,
when the history path does not exist the live file is moved there (history
gets exactly the live content); when the history path already exists the
live file is deleted and the history content retained unchanged; in both
cases the live path afterwards is a symbolic link to the history path and no
other path changes. -/
theorem c4_file_migration (env : SymEnv) (fs : FS) (src dst : FPath) (c : String) (b : Bool)
    (hfile : fsGet fs src = some (FNode.file c))
    (hDstParent : ∀ a ∈ heads dst.dropLast, fsGet fs a = some FNode.dir)
    (hSrcParent : ∀ a ∈ heads src.dropLast, fsGet fs a = some FNode.dir)
    (hok : env.symlinkFail src = none)
    (hne : ¬ dst = src) :
    (fsGet fs dst = none →
      ∃ fs2, migrate_target env fs src dst b = Except.ok fs2 ∧
        fsGet fs2 dst = some (FNode.file c) ∧
        fsGet fs2 src = some (FNode.link dst) ∧
        ∀ q, ¬ q = src → ¬ q = dst → fsGet fs2 q = fsGet fs q) ∧
    (pyExists fs dst = true →
      ∃ fs2, migrate_target env fs src dst b = Except.ok fs2 ∧
        fsGet fs2 dst = fsGet fs dst ∧
        fsGet fs2 src = some (FNode.link dst) ∧
        ∀ q, ¬ q = src → fsGet fs2 q = fsGet fs q) := by
  have h1 : makedirs fs dst.dropLast = Except.ok fs :=
    makedirs_of_all_dirs _ _ hDstParent
  have hsrcne : ¬ src = dst := fun hh => hne hh.symm
  constructor
  · intro hdst
    have hpe : pyExists fs dst = false := pyExists_of_get_none fs dst hdst
    set fs1 := fsSet (fsErase fs src) dst (FNode.file c) with hfs1
    have hSrcParent1 : ∀ a ∈ heads src.dropLast, fsGet fs1 a = some FNode.dir := by
      intro a ha
      have hadir := hSrcParent a ha
      have hadst : ¬ a = dst := by
        intro hh
        rw [hh, hdst] at hadir
        exact Option.noConfusion hadir
      have hasrc : ¬ a = src := by
        intro hh
        rw [hh, hfile] at hadir
        exact FNode.noConfusion (Option.some.injEq _ _ ▸ hadir)
      rw [hfs1, fsGet_fsSet, fsGet_fsErase]
      simp [hadst, hasrc, hadir]
    have hm1 : makedirs fs1 src.dropLast = Except.ok fs1 :=
      makedirs_of_all_dirs _ _ hSrcParent1
    have hget1 : fsGet fs1 src = none := by
      rw [hfs1, fsGet_fsSet, fsGet_fsErase]
      simp [hsrcne]
    have hes : ensure_symlink env fs1 src dst =
        Except.ok (fsSet fs1 src (FNode.link dst)) := by
      unfold ensure_symlink
      rw [hm1, bind_ok_reduce, hget1]
      unfold symlinkOp
      rw [hok]
    refine ⟨fsSet fs1 src (FNode.link dst), ?_, ?_, ?_, ?_⟩
    · have hbr : migrateFileBranch env fs src dst c =
          Except.ok (fsSet fs1 src (FNode.link dst)) := by
        unfold migrateFileBranch
        rw [hpe]
        simp only [Bool.false_eq_true, if_false, ite_false, bind_ok_reduce, h1]
        exact hes
      unfold migrate_target
      rw [h1, bind_ok_reduce, hfile]
      exact hbr
    · rw [fsGet_fsSet]
      simp only [hne, if_false, ite_false]
      rw [hfs1, fsGet_fsSet]
      simp
    · rw [fsGet_fsSet]
      simp
    · intro q hqs hqd
      rw [fsGet_fsSet, hfs1, fsGet_fsSet, fsGet_fsErase]
      simp [hqs, hqd]
  · intro hpe
    set fs1 := fsErase fs src with hfs1
    have hSrcParent1 : ∀ a ∈ heads src.dropLast, fsGet fs1 a = some FNode.dir := by
      intro a ha
      have hadir := hSrcParent a ha
      have hasrc : ¬ a = src := by
        intro hh
        rw [hh, hfile] at hadir
        exact FNode.noConfusion (Option.some.injEq _ _ ▸ hadir)
      rw [hfs1, fsGet_fsErase]
      simp [hasrc, hadir]
    have hm1 : makedirs fs1 src.dropLast = Except.ok fs1 :=
      makedirs_of_all_dirs _ _ hSrcParent1
    have hget1 : fsGet fs1 src = none := by
      rw [hfs1, fsGet_fsErase]
      simp
    have hes : ensure_symlink env fs1 src dst =
        Except.ok (fsSet fs1 src (FNode.link dst)) := by
      unfold ensure_symlink
      rw [hm1, bind_ok_reduce, hget1]
      unfold symlinkOp
      rw [hok]
    refine ⟨fsSet fs1 src (FNode.link dst), ?_, ?_, ?_, ?_⟩
    · have hbr : migrateFileBranch env fs src dst c =
          Except.ok (fsSet fs1 src (FNode.link dst)) := by
        unfold migrateFileBranch
        rw [hpe]
        simp only [if_true, ite_true, bind_ok_reduce]
        exact hes
      unfold migrate_target
      rw [h1, bind_ok_reduce, hfile]
      exact hbr
    · rw [fsGet_fsSet]
      simp only [hne, if_false, ite_false]
      rw [hfs1, fsGet_fsErase]
      simp [hne]
    · rw [fsGet_fsSet]
      simp
    · intro q hqs
      rw [fsGet_fsSet, hfs1, fsGet_fsErase]
      simp [hqs]

/-- Claim C4 witness: moving a fresh live file into history and linking, at a
concrete filesystem. -/
theorem c4_witness :
    ∃ fs2, migrate_target envCopy
        [(["a"], FNode.dir), (["h"], FNode.dir), (["a", "x"], FNode.file "data")]
        ["a", "x"] ["h", "x"] false = Except.ok fs2 ∧
      fsGet fs2 ["h", "x"] = some (FNode.file "data") ∧
      fsGet fs2 ["a", "x"] = some (FNode.link ["h", "x"]) ∧
      ∀ q, ¬ q = ["a", "x"] → ¬ q = ["h", "x"] →
        fsGet fs2 q = fsGet
          [(["a"], FNode.dir), (["h"], FNode.dir), (["a", "x"], FNode.file "data")] q :=
  (c4_file_migration envCopy
    [(["a"], FNode.dir), (["h"], FNode.dir), (["a", "x"], FNode.file "data")]
    ["a", "x"] ["h", "x"] "data" false (by decide) (by decide) (by decide)
    (by decide) (by decide)).1 (by decide)

theorem leads_false_of_length_lt (p q : FPath) (h : q.length < p.length) :
    leads p q = false := by
  by_cases hl : leads p q = true
  · have := leads_length_le p q hl
    omega
  · simpa using hl

theorem dropLast_leads (p : FPath) (h : p ≠ []) : leads p.dropLast p = true := by
  have hp : p.dropLast ++ [p.getLast h] = p := List.dropLast_append_getLast h
  calc leads p.dropLast p = leads p.dropLast (p.dropLast ++ [p.getLast h]) := by rw [hp]
    _ = true := leads_append _ _

theorem heads_dropLast_leads (p : FPath) (h : p ≠ []) (a : FPath)
    (ha : a ∈ heads p.dropLast) : leads a p = true :=
  leads_trans a p.dropLast p (heads_mem_leads _ _ ha) (dropLast_leads p h)

theorem heads_dropLast_not_led (p : FPath) (a : FPath) (ha : a ∈ heads p.dropLast) :
    leads p a = false := by
  have hlen := heads_mem_length _ _ ha
  cases p with
  | nil => simp [heads] at ha
  | cons x xs =>
    apply leads_false_of_length_lt
    have hdl : (x :: xs).dropLast.length = xs.length := by
      simp [List.length_dropLast]
    rw [hdl] at hlen
    simp only [List.length_cons]
    omega

theorem fsGet_foldl_fsSet_frame (dst : FPath) (l : List (FPath × FNode)) (fs : FS)
    (q : FPath) (h : ∀ rn ∈ l, ¬ dst ++ rn.1 = q) :
    fsGet (l.foldl (fun acc rn => fsSet acc (dst ++ rn.1) rn.2) fs) q = fsGet fs q := by
  induction l generalizing fs with
  | nil => rfl
  | cons rn rest ih =>
    simp only [List.foldl_cons]
    rw [ih _ (fun x hx => h x (by simp [hx]))]
    rw [fsGet_fsSet]
    have : ¬ q = dst ++ rn.1 := fun hh => h rn (by simp) hh.symm
    simp [this]

theorem relUnder_fst_ne_nil (root : FPath) (fs : FS) :
    ∀ rn ∈ relUnder root fs, rn.1 ≠ [] := by
  intro rn hm
  unfold relUnder at hm
  rw [List.mem_filterMap] at hm
  obtain ⟨e, _, he⟩ := hm
  by_cases hc : leads root e.1 = true ∧ ¬ e.1 = root
  · rw [if_pos hc] at he
    obtain ⟨r, hr⟩ := (leads_iff_exists _ _).mp hc.1
    have hfst : rn.1 = e.1.drop root.length := by
      cases he
      rfl
    rw [hfst, hr, List.drop_left]
    intro hnil
    exact hc.2 (by rw [hr, hnil, List.append_nil])
  · rw [if_neg hc] at he
    exact Option.noConfusion he

theorem rsyncMerge_frame (fs : FS) (src dst q : FPath)
    (h : ¬ (leads dst q = true ∧ ¬ q = dst)) :
    fsGet (rsyncMerge fs src dst) q = fsGet fs q := by
  unfold rsyncMerge
  apply fsGet_foldl_fsSet_frame
  intro rn hm heq
  apply h
  constructor
  · rw [← heq]
    exact leads_append dst rn.1
  · intro hq
    apply relUnder_fst_ne_nil src fs rn hm
    rw [hq] at heq
    have hlen := congrArg List.length heq
    simp at hlen
    exact hlen

theorem linkChild_get_self (env : SymEnv) (src dst : FPath) (fs : FS) (n : String)
    (hok : env.symlinkFail (src ++ [n]) = none) :
    fsGet (linkChild env src dst fs n) (src ++ [n]) = some (FNode.link (dst ++ [n])) := by
  simp only [linkChild, hok]
  rw [fsGet_fsSet]
  simp

theorem removeChild_frame (fs : FS) (child q : FPath) (hq : leads child q = false) :
    fsGet (removeChild fs child) q = fsGet fs q := by
  have hne : ¬ q = child := by
    intro hh
    rw [hh, leads_refl] at hq
    exact Bool.noConfusion hq
  unfold removeChild
  cases hget : fsGet fs child with
  | none => rfl
  | some node =>
    cases node with
    | dir =>
      rw [fsGet_rmtree, hq]
      simp
    | file c =>
      rw [fsGet_fsErase]
      simp [hne]
    | link t =>
      rw [fsGet_fsErase]
      simp [hne]

theorem linkChild_frame (env : SymEnv) (src dst : FPath) (fs : FS) (n : String)
    (q : FPath) (hq : leads (src ++ [n]) q = false) :
    fsGet (linkChild env src dst fs n) q = fsGet fs q := by
  have hne : ¬ q = src ++ [n] := by
    intro hh
    rw [hh, leads_refl] at hq
    exact Bool.noConfusion hq
  simp only [linkChild]
  cases hfail : env.symlinkFail (src ++ [n]) with
  | some e =>
    by_cases hex : (fsGet fs (src ++ [n])).isSome = true
    · rw [if_pos hex]
      exact removeChild_frame fs (src ++ [n]) q hq
    · rw [if_neg hex]
  | none =>
    rw [fsGet_fsSet, if_neg hne]
    by_cases hex : (fsGet fs (src ++ [n])).isSome = true
    · rw [if_pos hex]
      exact removeChild_frame fs (src ++ [n]) q hq
    · rw [if_neg hex]

theorem linkChildren_get (env : SymEnv) (src dst : FPath) (ns : List String) (fs : FS)
    (hok : ∀ n ∈ ns, env.symlinkFail (src ++ [n]) = none) :
    (∀ n ∈ ns, fsGet (ns.foldl (linkChild env src dst) fs) (src ++ [n]) =
      some (FNode.link (dst ++ [n]))) ∧
    (∀ q, (∀ n ∈ ns, leads (src ++ [n]) q = false) →
      fsGet (ns.foldl (linkChild env src dst) fs) q = fsGet fs q) := by
  induction ns generalizing fs with
  | nil => exact ⟨by simp, fun q _ => rfl⟩
  | cons n rest ih =>
    have hokn := hok n (by simp)
    have hokr : ∀ m ∈ rest, env.symlinkFail (src ++ [m]) = none :=
      fun m hm => hok m (by simp [hm])
    obtain ⟨ih1, ih2⟩ := ih (linkChild env src dst fs n) hokr
    constructor
    · intro m hm
      simp only [List.foldl_cons]
      rcases List.mem_cons.mp hm with rfl | hmr
      · by_cases hmem : m ∈ rest
        · exact ih1 m hmem
        · rw [ih2 (src ++ [m]) ?_]
          · exact linkChild_get_self env src dst fs m hokn
          · intro x hx
            by_cases hxm : x = m
            · exact absurd (hxm ▸ hx) hmem
            · by_cases hl : leads (src ++ [x]) (src ++ [m]) = true
              · exact absurd ((leads_append_singleton_iff src x m).mp hl) hxm
              · simpa using hl
      · exact ih1 m hmr
    · intro q hq
      simp only [List.foldl_cons]
      rw [ih2 q (fun m hm => hq m (by simp [hm]))]
      exact linkChild_frame env src dst fs n q (hq n (by simp))

/-- Claim C5: for a directory Target, when replacing the merged live
directory with a symlink fails with EPERM/EACCES (or the live parent is not
writable), reconciliation does not fail: the per-child fallback runs, after
which every top-level entry of the history directory is reachable through a
same-named symbolic link inside the live directory and no top-level live
entry remains that does not correspond to a history entry; any other
`OSError` (with a writable parent) propagates to the caller. -/
theorem c5_fallback_linking (env : SymEnv) (fs : FS) (src dst : FPath) (b : Bool)
    (hsrcdir : fsGet fs src = some FNode.dir)
    (hsrcne : src ≠ [])
    (hdstne : dst ≠ [])
    (hrsync : env.rsyncAvail = true)
    (hdisj1 : leads src dst = false)
    (hdisj2 : leads dst src = false)
    (hDstHeads : ∀ a ∈ heads dst, fsGet fs a = some FNode.dir)
    (hSrcParent : ∀ a ∈ heads src.dropLast, fsGet fs a = some FNode.dir) :
    (∀ e, env.symlinkFail src = some e →
      (e = OSErr.eperm ∨ e = OSErr.eacces ∨ env.parentWritable src.dropLast = false) →
      (∀ n, env.symlinkFail (src ++ [n]) = none) →
      ∃ fs2, migrate_target env fs src dst b = Except.ok fs2 ∧
        (∀ n, n ∈ listdir fs2 dst →
          fsGet fs2 (src ++ [n]) = some (FNode.link (dst ++ [n]))) ∧
        (∀ n, (fsGet fs2 (src ++ [n])).isSome = true → n ∈ listdir fs2 dst)) ∧
    (env.symlinkFail src = some OSErr.other →
      env.parentWritable src.dropLast = true →
      migrate_target env fs src dst b = Except.error OSErr.other) := by
  have hDstParentHeads : ∀ a ∈ heads dst.dropLast, fsGet fs a = some FNode.dir := by
    intro a ha
    apply hDstHeads
    rw [heads_eq_dropLast dst hdstne]
    exact List.mem_append.mpr (Or.inl ha)
  have hmk0 : makedirs fs dst.dropLast = Except.ok fs :=
    makedirs_of_all_dirs _ _ hDstParentHeads
  have hmk1 : makedirs fs dst = Except.ok fs := makedirs_of_all_dirs _ _ hDstHeads
  have hdisp : migrate_target env fs src dst b = migrateDirBranch env fs src dst := by
    unfold migrate_target
    rw [hmk0, bind_ok_reduce, hsrcdir]
  have hfs1SrcParent : ∀ a ∈ heads src.dropLast,
      fsGet (rsyncMerge fs src dst) a = some FNode.dir := by
    intro a ha
    rw [rsyncMerge_frame]
    · exact hSrcParent a ha
    · intro hcon
      have hasrc : leads a src = true := heads_dropLast_leads src hsrcne a ha
      have : leads dst src = true := leads_trans dst a src hcon.1 hasrc
      rw [hdisj2] at this
      exact Bool.noConfusion this
  have hfs1DstHeads : ∀ a ∈ heads dst,
      fsGet (rsyncMerge fs src dst) a = some FNode.dir := by
    intro a ha
    rw [rsyncMerge_frame]
    · exact hDstHeads a ha
    · intro hcon
      exact hcon.2 (leads_antisymm dst a hcon.1 (heads_mem_leads dst a ha)).symm
  have hfs2src : fsGet (rmtree (rsyncMerge fs src dst) src) src = none := by
    rw [fsGet_rmtree, if_pos (leads_refl src)]
  have hfs2SrcParent : ∀ a ∈ heads src.dropLast,
      fsGet (rmtree (rsyncMerge fs src dst) src) a = some FNode.dir := by
    intro a ha
    rw [fsGet_rmtree, heads_dropLast_not_led src a ha]
    · exact hfs1SrcParent a ha
  have hfs2DstHeads : ∀ a ∈ heads dst,
      fsGet (rmtree (rsyncMerge fs src dst) src) a = some FNode.dir := by
    intro a ha
    have hnl : leads src a = false := by
      by_cases hl : leads src a = true
      · have : leads src dst = true :=
          leads_trans src a dst hl (heads_mem_leads dst a ha)
        rw [hdisj1] at this
        exact Bool.noConfusion this
      · simpa using hl
    rw [fsGet_rmtree, hnl]
    · exact hfs1DstHeads a ha
  have hmkP : makedirs (rmtree (rsyncMerge fs src dst) src) src.dropLast =
      Except.ok (rmtree (rsyncMerge fs src dst) src) :=
    makedirs_of_all_dirs _ _ hfs2SrcParent
  constructor
  · intro e hfail hcond hchild
    have hes : ensure_symlink env (rmtree (rsyncMerge fs src dst) src) src dst =
        Except.error e := by
      unfold ensure_symlink
      rw [hmkP, bind_ok_reduce, hfs2src]
      unfold symlinkOp
      rw [hfail]
    have hmkD : makedirs (rmtree (rsyncMerge fs src dst) src) dst =
        Except.ok (rmtree (rsyncMerge fs src dst) src) :=
      makedirs_of_all_dirs _ _ hfs2DstHeads
    have hSrcHeadsOK : ∀ a ∈ heads src,
        dirOrNone (rmtree (rsyncMerge fs src dst) src) a = true := by
      intro a ha
      rw [heads_eq_dropLast src hsrcne] at ha
      rcases List.mem_append.mp ha with h | h
      · simp [dirOrNone, hfs2SrcParent a h]
      · have haeq : a = src := by simpa using h
        rw [haeq]
        simp [dirOrNone, hfs2src]
    obtain ⟨fs4, hmkS, hfs4⟩ :=
      makedirs_of_dirOrNone (rmtree (rsyncMerge fs src dst) src) src hSrcHeadsOK
    have hlipp : link_dir_contents_in_place env (rmtree (rsyncMerge fs src dst) src)
        src dst = Except.ok ((listdir fs4 dst).foldl (linkChild env src dst) fs4) := by
      unfold link_dir_contents_in_place
      rw [hmkD, bind_ok_reduce]
      rw [if_neg (by rw [hfs2src]; intro hh; exact Option.noConfusion hh)]
      rw [hmkS, bind_ok_reduce]
    have hbr : migrateDirBranch env fs src dst =
        Except.ok ((listdir fs4 dst).foldl (linkChild env src dst) fs4) := by
      unfold migrateDirBranch
      rw [hmk1, bind_ok_reduce, if_pos hrsync]
      simp only [bind_ok_reduce]
      rw [hes]
      show (if e = OSErr.eperm ∨ e = OSErr.eacces ∨
          env.parentWritable src.dropLast = false then
        link_dir_contents_in_place env (rmtree (rsyncMerge fs src dst) src) src dst
        else Except.error e) = _
      rw [if_pos hcond]
      exact hlipp
    have hchildNs : ∀ n ∈ listdir fs4 dst, env.symlinkFail (src ++ [n]) = none :=
      fun n _ => hchild n
    obtain ⟨hLC1, hLC2⟩ := linkChildren_get env src dst (listdir fs4 dst) fs4 hchildNs
    have hframe_dst : ∀ n : String,
        fsGet ((listdir fs4 dst).foldl (linkChild env src dst) fs4) (dst ++ [n]) =
          fsGet fs4 (dst ++ [n]) := by
      intro n
      apply hLC2
      intro m _
      by_cases hl : leads (src ++ [m]) (dst ++ [n]) = true
      · have hsl : leads src (dst ++ [n]) = true :=
          leads_trans src (src ++ [m]) (dst ++ [n]) (leads_append src [m]) hl
        have hdl : leads dst (dst ++ [n]) = true := leads_append dst [n]
        rcases leads_comparable src dst (dst ++ [n]) hsl hdl with h | h
        · rw [hdisj1] at h
          exact Bool.noConfusion h
        · rw [hdisj2] at h
          exact Bool.noConfusion h
      · simpa using hl
    have hmemiff : ∀ n : String,
        (n ∈ listdir ((listdir fs4 dst).foldl (linkChild env src dst) fs4) dst) ↔
          n ∈ listdir fs4 dst := by
      intro n
      rw [listdir_mem_iff, hframe_dst, ← listdir_mem_iff]
    refine ⟨(listdir fs4 dst).foldl (linkChild env src dst) fs4, ?_, ?_, ?_⟩
    · rw [hdisp, hbr]
    · intro n hn
      exact hLC1 n ((hmemiff n).mp hn)
    · intro n hn
      by_cases hmem : n ∈ listdir fs4 dst
      · exact (hmemiff n).mpr hmem
      · exfalso
        have hfr : fsGet ((listdir fs4 dst).foldl (linkChild env src dst) fs4)
            (src ++ [n]) = fsGet fs4 (src ++ [n]) := by
          apply hLC2
          intro m hm
          by_cases hl : leads (src ++ [m]) (src ++ [n]) = true
          · have heq : m = n := (leads_append_singleton_iff src m n).mp hl
            rw [heq] at hm
            exact absurd hm hmem
          · simpa using hl
        rw [hfr] at hn
        rw [hfs4 (src ++ [n])] at hn
        have hnot : ¬ ((src ++ [n]) ∈ heads src ∧
            fsGet (rmtree (rsyncMerge fs src dst) src) (src ++ [n]) = none) := by
          intro hcon
          have := heads_mem_length src (src ++ [n]) hcon.1
          simp at this
        rw [if_neg hnot] at hn
        rw [fsGet_rmtree, if_pos (leads_append src [n])] at hn
        simp at hn
  · intro hfail hpw
    have hes : ensure_symlink env (rmtree (rsyncMerge fs src dst) src) src dst =
        Except.error OSErr.other := by
      unfold ensure_symlink
      rw [hmkP, bind_ok_reduce, hfs2src]
      unfold symlinkOp
      rw [hfail]
    have hbr : migrateDirBranch env fs src dst = Except.error OSErr.other := by
      unfold migrateDirBranch
      rw [hmk1, bind_ok_reduce, if_pos hrsync]
      simp only [bind_ok_reduce]
      rw [hes]
      show (if OSErr.other = OSErr.eperm ∨ OSErr.other = OSErr.eacces ∨
          env.parentWritable src.dropLast = false then
        link_dir_contents_in_place env (rmtree (rsyncMerge fs src dst) src) src dst
        else Except.error OSErr.other) = _
      rw [if_neg ?_]
      intro hcon
      rcases hcon with h | h | h
      · exact OSErr.noConfusion h
      · exact OSErr.noConfusion h
      · rw [hpw] at h
        exact Bool.noConfusion h
    rw [hdisp, hbr]

/-- Environment where replacing the live directory `/a` itself fails with
EPERM but child links succeed. -/
def env5 : SymEnv :=
  { symlinkFail := fun p => if p = ["a"] then some OSErr.eperm else none,
    parentWritable := fun _ => true,
    rsyncAvail := true }

/-- Live directory `/a` with a file, history directory `/h` with another
file. -/
def fs5w : FS :=
  [(["a"], FNode.dir), (["a", "x"], FNode.file "1"),
   (["h"], FNode.dir), (["h", "y"], FNode.file "2")]

/-- Claim C5 witness: the fallback at a concrete filesystem. -/
theorem c5_witness :
    ∃ fs2, migrate_target env5 fs5w ["a"] ["h"] true = Except.ok fs2 ∧
      (∀ n, n ∈ listdir fs2 ["h"] →
        fsGet fs2 (["a"] ++ [n]) = some (FNode.link (["h"] ++ [n]))) ∧
      (∀ n, (fsGet fs2 (["a"] ++ [n])).isSome = true → n ∈ listdir fs2 ["h"]) :=
  (c5_fallback_linking env5 fs5w ["a"] ["h"] true (by decide) (by decide) (by decide)
    (by decide) (by decide) (by decide) (by decide) (by decide)).1
    OSErr.eperm (by decide) (Or.inl rfl)
    (fun n => by
      show (if (["a", n] : FPath) = ["a"] then some OSErr.eperm else none) = none
      rw [if_neg (by simp)])

/-!
Empty-directory tracking (`track_empty_dirs`, `linker.py` lines 201-225).
The walked directory's path relative to the history root is computed at the
string level because the code mangles it: `os.path.relpath(d,
hist_dir).lstrip("./")` removes every leading `.` and `/` character, not
just a leading `./` sequence.
-/

/-- Python `str.lstrip("./")` (`linker.py` line 212): strips every leading
character that is a dot or a slash. -/
def lstripDotSlash (s : String) : String :=
  String.mk (s.toList.dropWhile (fun c => c == '.' || c == '/'))

/-- Python `os.path.relpath(d, hist)` for a directory `d` below the history
root `hist` (the only way `track_empty_dirs` calls it): the relative
component path joined with slashes, `"."` when they are equal. -/
def relpathStr (hist d : FPath) : String :=
  if d.drop hist.length = [] then "."
  else String.intercalate "/" (d.drop hist.length)

/-- Character-list version of `startswith` for whole strings. -/
def strLeads : List Char → List Char → Bool
  | [], _ => true
  | _ :: _, [] => false
  | a :: as, b :: bs => a == b && strLeads as bs

/-- Modelled from the spec: `is_excluded` lives in `sync/core/blacklist.py`,
which is absent from the source tree.  Following §3 of the specification an
ExcludeRule is "a path (or path prefix) relative to the history root", so a
relative path is excluded exactly when it equals a rule or lies below a
rule. -/
def is_excluded (rel : String) (excludes : List String) : Bool :=
  excludes.any (fun r => rel == r || strLeads (r.toList ++ ['/']) rel.toList)

/-- Substring occurrence test on character lists. -/
def strContainsSub (pat : List Char) : List Char → Bool
  | [] => strLeads pat []
  | c :: rest => strLeads pat (c :: rest) || strContainsSub pat rest

/-- The `"/.git/" in f"/{rel_under_hist}/"` check (`linker.py` line 216). -/
def hasGitComponent (rel : String) : Bool :=
  strContainsSub ("/.git/".toList) (("/" ++ rel ++ "/").toList)

/-- One directory visit of the `os.walk` loop of `track_empty_dirs`
(`linker.py` lines 211-223): skip excluded and `.git` paths, then write a
`.gitkeep` placeholder when the directory is empty and the placeholder is
not already present, counting new writes. -/
def trackVisit (hist : FPath) (excludes : List String) (acc : FS × Nat) (d : FPath) :
    FS × Nat :=
  let rel := lstripDotSlash (relpathStr hist d)
  if is_excluded rel excludes = true then acc
  else if hasGitComponent rel = true then acc
  else if listdir acc.1 d = [] then
    if pyExists acc.1 (d ++ [".gitkeep"]) = true then acc
    else (fsSet acc.1 (d ++ [".gitkeep"]) (FNode.file ""), acc.2 + 1)
  else acc

/-- Directories visited by `os.walk(root)`: the root itself, then every
directory entry strictly below it, in filesystem entry order. -/
def dirsUnder (fs : FS) (root : FPath) : List FPath :=
  root :: fs.filterMap (fun e =>
    if leads root e.1 = true ∧ ¬ e.1 = root ∧ e.2 = FNode.dir then some e.1 else none)

/-- Translation of `track_empty_dirs` (`linker.py` lines 201-225), with the
targets given as history-relative component paths (the string-level
`to_under_hist` mapping is treated in the path-mapper section): walk each
directory target's subtree below the history root and visit every
directory; returns the updated filesystem and the count of `.gitkeep`
placeholders newly written. -/
def track_empty_dirs (fs : FS) (hist : FPath) (targets : List FPath)
    (excludes : List String) : FS × Nat :=
  targets.foldl (fun acc rel =>
    let root := hist ++ rel
    if fsGet acc.1 root = some FNode.dir then
      (dirsUnder acc.1 root).foldl (trackVisit hist excludes) acc
    else acc) (fs, 0)

/-- History tree `/h/.app/secret` with `secret` empty; the target is the
dot-leading directory `.app` and `secret` is excluded. -/
def fs8 : FS :=
  [(["h"], FNode.dir), (["h", ".app"], FNode.dir), (["h", ".app", "secret"], FNode.dir)]

/-- Claim C8 failing input evaluated: the directory `.app/secret` below the
history root is matched by the ExcludeRule `.app/secret`, yet
`track_empty_dirs` writes a `.gitkeep` placeholder inside it (and counts
it), because `relpath(d, hist).lstrip("./")` strips the leading dot of the
first component and the mangled path `app/secret` no longer matches the
rule. -/
theorem c8_placeholder_written_inside_excluded_path :
    is_excluded ".app/secret" [".app/secret"] = true ∧
    (track_empty_dirs fs8 ["h"] [[".app"]] [".app/secret"]).2 = 1 ∧
    fsGet (track_empty_dirs fs8 ["h"] [[".app"]] [".app/secret"]).1
      ["h", ".app", "secret", ".gitkeep"] = some (FNode.file "") := by
  refine ⟨?_, ?_, ?_⟩ <;> decide

theorem listdir_nil_down (fs acc : FS) (d : FPath)
    (hmono : ∀ p n, fsGet fs p = some n → fsGet acc p = some n)
    (hnil : listdir acc d = []) : listdir fs d = [] := by
  cases hx : listdir fs d with
  | nil => rfl
  | cons x xs =>
    exfalso
    have hmem : x ∈ listdir fs d := by rw [hx]; exact List.mem_cons_self _ _
    rw [listdir_mem_iff] at hmem
    cases hg : fsGet fs (d ++ [x]) with
    | none => rw [hg] at hmem; simp at hmem
    | some node =>
      have hm2 : x ∈ listdir acc d := by
        rw [listdir_mem_iff, hmono _ _ hg]
        rfl
      rw [hnil] at hm2
      simp at hm2

theorem trackVisit_mono (hist : FPath) (excludes : List String) (acc : FS × Nat)
    (d : FPath) (p : FPath) (n : FNode) (h : fsGet acc.1 p = some n) :
    fsGet (trackVisit hist excludes acc d).1 p = some n := by
  simp only [trackVisit]
  split_ifs with h1 h2 h3 h4
  · exact h
  · exact h
  · exact h
  · show fsGet (fsSet acc.1 (d ++ [".gitkeep"]) (FNode.file "")) p = some n
    rw [fsGet_fsSet]
    have hne : ¬ p = d ++ [".gitkeep"] := by
      intro hp
      have hm : ".gitkeep" ∈ listdir acc.1 d := by
        rw [listdir_mem_iff, ← hp, h]
        rfl
      rw [h3] at hm
      simp at hm
    rw [if_neg hne]
    exact h
  · exact h

theorem trackVisit_new (hist : FPath) (excludes : List String) (acc : FS × Nat)
    (d : FPath) (p : FPath) (m : FNode) (hnone : fsGet acc.1 p = none)
    (hsome : fsGet (trackVisit hist excludes acc d).1 p = some m) :
    m = FNode.file "" ∧ p = d ++ [".gitkeep"] ∧ listdir acc.1 d = [] := by
  revert hsome
  simp only [trackVisit]
  split_ifs with h1 h2 h3 h4
  · intro hsome; rw [hnone] at hsome; exact Option.noConfusion hsome
  · intro hsome; rw [hnone] at hsome; exact Option.noConfusion hsome
  · intro hsome; rw [hnone] at hsome; exact Option.noConfusion hsome
  · intro hsome
    have hsome2 : fsGet (fsSet acc.1 (d ++ [".gitkeep"]) (FNode.file "")) p = some m :=
      hsome
    rw [fsGet_fsSet] at hsome2
    by_cases hp : p = d ++ [".gitkeep"]
    · rw [if_pos hp] at hsome2
      have hm : m = FNode.file "" := by
        cases hsome2
        rfl
      exact ⟨hm, hp, h3⟩
    · rw [if_neg hp, hnone] at hsome2
      exact Option.noConfusion hsome2
  · intro hsome; rw [hnone] at hsome; exact Option.noConfusion hsome

theorem foldl_preserve {α : Type} {σ : Type} (Inv : σ → Prop) (f : σ → α → σ)
    (hstep : ∀ s a, Inv s → Inv (f s a)) :
    ∀ (l : List α) (s : σ), Inv s → Inv (l.foldl f s) := by
  intro l
  induction l with
  | nil => intro s h; exact h
  | cons a rest ih =>
    intro s h
    exact ih _ (hstep s a h)

/-- Claim C10: `track_empty_dirs` never deletes, renames or modifies a
pre-existing entry — every path bound before the call is bound to the same
node afterwards — and the only new entries it can create are zero-byte
`.gitkeep` placeholder files inside directories that were empty. -/
theorem c10_track_empty_dirs_frame (fs : FS) (hist : FPath) (targets : List FPath)
    (excludes : List String) :
    (∀ p n, fsGet fs p = some n →
      fsGet (track_empty_dirs fs hist targets excludes).1 p = some n) ∧
    (∀ p m, fsGet fs p = none →
      fsGet (track_empty_dirs fs hist targets excludes).1 p = some m →
      m = FNode.file "" ∧ ∃ d, p = d ++ [".gitkeep"] ∧ listdir fs d = []) := by
  have hmain : (∀ p n, fsGet fs p = some n →
        fsGet (track_empty_dirs fs hist targets excludes).1 p = some n) ∧
      (∀ p m, fsGet fs p = none →
        fsGet (track_empty_dirs fs hist targets excludes).1 p = some m →
        m = FNode.file "" ∧ ∃ d, p = d ++ [".gitkeep"] ∧ listdir fs d = []) := by
    have hInv := foldl_preserve
      (fun acc : FS × Nat =>
        (∀ p n, fsGet fs p = some n → fsGet acc.1 p = some n) ∧
        (∀ p m, fsGet fs p = none → fsGet acc.1 p = some m →
          m = FNode.file "" ∧ ∃ d, p = d ++ [".gitkeep"] ∧ listdir fs d = []))
      (fun acc rel =>
        let root := hist ++ rel
        if fsGet acc.1 root = some FNode.dir then
          (dirsUnder acc.1 root).foldl (trackVisit hist excludes) acc
        else acc)
      ?_ targets (fs, 0) ⟨fun p n h => h, ?_⟩
    · exact hInv
    · intro acc rel hacc
      dsimp only
      by_cases hdir : fsGet acc.1 (hist ++ rel) = some FNode.dir
      · rw [if_pos hdir]
        have := foldl_preserve
          (fun acc2 : FS × Nat =>
            (∀ p n, fsGet fs p = some n → fsGet acc2.1 p = some n) ∧
            (∀ p m, fsGet fs p = none → fsGet acc2.1 p = some m →
              m = FNode.file "" ∧ ∃ d, p = d ++ [".gitkeep"] ∧ listdir fs d = []))
          (trackVisit hist excludes)
          ?_ (dirsUnder acc.1 (hist ++ rel)) acc hacc
        · exact this
        · intro s d hs
          refine ⟨fun p n h => trackVisit_mono hist excludes s d p n (hs.1 p n h), ?_⟩
          intro p m hpn hres
          by_cases hsp : fsGet s.1 p = none
          · obtain ⟨hm, hp, hnil⟩ := trackVisit_new hist excludes s d p m hsp hres
            refine ⟨hm, d, hp, ?_⟩
            exact listdir_nil_down fs s.1 d (fun q nn hq => hs.1 q nn hq) hnil
          · cases hsg : fsGet s.1 p with
            | none => exact absurd hsg hsp
            | some node =>
              have := trackVisit_mono hist excludes s d p node hsg
              rw [this] at hres
              have hmn : m = node := by
                cases hres
                rfl
              rw [hmn]
              exact hs.2 p node hpn hsg
      · rw [if_neg hdir]
        exact hacc
    · intro p m hpn hsm
      rw [hpn] at hsm
      exact Option.noConfusion hsm
  exact hmain

/-- Claim C10 witness: the frame property applied at the concrete C8 tree:
the pre-existing directory entry survives the call. -/
theorem c10_witness :
    fsGet (track_empty_dirs fs8 ["h"] [[".app"]] [".app/secret"]).1
      ["h", ".app"] = some FNode.dir :=
  (c10_track_empty_dirs_frame fs8 ["h"] [[".app"]] [".app/secret"]).1
    ["h", ".app"] FNode.dir (by decide)

/-!
Sync daemon state machine (`sync/daemon.py`).  One alignment attempt of
`ensure_remote_ready` is summarised by a `GitAttempt`: whether the git
operations of the attempt (`remote_is_empty` / initial commit / push /
`fetch_and_checkout`) raise, the two `git rev-parse` results, and whether
reading them raises.  `stop k` is the value of the `_stop` event observed at
the top of loop iteration `k`.
-/

structure GitAttempt where
  prepRaises : Bool
  localHash : String
  remoteHash : String
  headRaises : Bool

/-- Translation of `SyncDaemon._head_matches_origin` (`daemon.py` lines
89-100): the two hashes are read, compared for equality, and the local one
must be non-empty; any exception yields `False`. -/
def head_matches_origin (a : GitAttempt) : Bool :=
  if a.headRaises then false
  else a.localHash == a.remoteHash && !(a.localHash == "")

/-- Whether alignment attempt `k` returns from `ensure_remote_ready`
(`daemon.py` lines 70-86): the attempt's git operations did not raise and
the head check succeeded; an exception is caught by the `except` clause and
the attempt fails without propagating. -/
def attempt_succeeds (env : Nat → GitAttempt) (k : Nat) : Bool :=
  if (env k).prepRaises then false else head_matches_origin (env k)

inductive AlignOutcome where
  | aligned (k : Nat)
  | cancelled (k : Nat)
  | running
deriving DecidableEq, Repr

/-- The retry loop of `ensure_remote_ready` (`daemon.py` lines 69-87)
starting at iteration `k` with `fuel` iterations observed: `cancelled` when
the `while not self._stop.is_set()` guard exits, `aligned` on the `return`
after a successful head check, `running` when the observation window ends
with the loop still going. -/
def align_loop (env : Nat → GitAttempt) (stop : Nat → Bool) : Nat → Nat → AlignOutcome
  | _, 0 => AlignOutcome.running
  | k, fuel + 1 =>
    if stop k then AlignOutcome.cancelled k
    else if attempt_succeeds env k then AlignOutcome.aligned k
    else align_loop env stop (k + 1) fuel

/-- Seconds slept by the alignment loop (`time.sleep(3)` after every
non-returning attempt). -/
def align_time (env : Nat → GitAttempt) (stop : Nat → Bool) : Nat → Nat → Nat
  | _, 0 => 0
  | k, fuel + 1 =>
    if stop k then 0
    else if attempt_succeeds env k then 0
    else 3 + align_time env stop (k + 1) fuel

theorem attempt_succeeds_iff (env : Nat → GitAttempt) (k : Nat) :
    attempt_succeeds env k = true ↔
      (env k).prepRaises = false ∧ (env k).headRaises = false ∧
      (env k).localHash = (env k).remoteHash ∧ (env k).localHash ≠ "" := by
  unfold attempt_succeeds head_matches_origin
  by_cases h1 : (env k).prepRaises <;> by_cases h2 : (env k).headRaises <;>
    simp [h1, h2]

/-- Claim C3: the alignment phase reports success and advances exactly when
the local and remote-tracking hashes are equal and non-empty (and no git
exception occurred in the attempt); an exception in an attempt never
propagates — the loop continues with the next attempt after a fixed
3-second backoff — and when no attempt ever succeeds and cancellation is
never requested, the loop runs forever. -/
theorem c3_alignment_gate (env : Nat → GitAttempt) (stop : Nat → Bool) :
    (∀ k fuel j, align_loop env stop k fuel = AlignOutcome.aligned j →
      (env j).prepRaises = false ∧ (env j).headRaises = false ∧
      (env j).localHash = (env j).remoteHash ∧ (env j).localHash ≠ "") ∧
    (∀ k fuel, stop k = false → attempt_succeeds env k = true →
      align_loop env stop k (fuel + 1) = AlignOutcome.aligned k) ∧
    (∀ k fuel, stop k = false → attempt_succeeds env k = false →
      align_loop env stop k (fuel + 1) = align_loop env stop (k + 1) fuel ∧
      align_time env stop k (fuel + 1) = 3 + align_time env stop (k + 1) fuel) ∧
    ((∀ j, attempt_succeeds env j = false) → (∀ j, stop j = false) →
      ∀ k fuel, align_loop env stop k fuel = AlignOutcome.running) := by
  refine ⟨?_, ?_, ?_, ?_⟩
  · intro k fuel
    induction fuel generalizing k with
    | zero =>
      intro j h
      exact AlignOutcome.noConfusion h
    | succ m ih =>
      intro j h
      unfold align_loop at h
      by_cases hs : stop k = true
      · rw [if_pos hs] at h
        exact AlignOutcome.noConfusion h
      · rw [if_neg hs] at h
        by_cases ha : attempt_succeeds env k = true
        · rw [if_pos ha] at h
          have hkj : k = j := by
            cases h
            rfl
          rw [← hkj]
          exact (attempt_succeeds_iff env k).mp ha
        · rw [if_neg ha] at h
          exact ih (k + 1) j h
  · intro k fuel hs ha
    unfold align_loop
    rw [if_neg (by rw [hs]; exact Bool.noConfusion), if_pos ha]
  · intro k fuel hs ha
    constructor
    · conv_lhs => unfold align_loop
      rw [if_neg (by rw [hs]; exact Bool.noConfusion),
        if_neg (by rw [ha]; exact Bool.noConfusion)]
    · conv_lhs => unfold align_time
      rw [if_neg (by rw [hs]; exact Bool.noConfusion),
        if_neg (by rw [ha]; exact Bool.noConfusion)]
  · intro hnever hnostop k fuel
    induction fuel generalizing k with
    | zero => rfl
    | succ m ih =>
      unfold align_loop
      rw [if_neg (by rw [hnostop k]; exact Bool.noConfusion),
        if_neg (by rw [hnever k]; exact Bool.noConfusion)]
      exact ih (k + 1)

/-- Aligned environment: every attempt sees equal non-empty hashes. -/
def env3 : Nat → GitAttempt := fun _ =>
  { prepRaises := false, localHash := "h", remoteHash := "h", headRaises := false }

/-- Claim C3 witness: with matching hashes and no cancellation, the first
attempt aligns. -/
theorem c3_witness :
    align_loop env3 (fun _ => false) 0 1 = AlignOutcome.aligned 0 :=
  (c3_alignment_gate env3 (fun _ => false)).2.1 0 0 rfl (by decide)

inductive DaemonEvent where
  | alignAttempt (k : Nat)
  | alignDone (k : Nat)
  | alignCancelled (k : Nat)
  | linkAndTrack
  | syncCycle (i : Nat)
deriving DecidableEq, Repr

/-- Events produced by the `ensure_remote_ready` loop, paired with whether
the call returned within the observed fuel: `alignCancelled k` when the
`while` guard exits at iteration `k` (the method then RETURNS normally),
`alignDone k` on the verified-head `return`. -/
def align_events (env : Nat → GitAttempt) (stop : Nat → Bool) :
    Nat → Nat → List DaemonEvent × Bool
  | _, 0 => ([], false)
  | k, fuel + 1 =>
    if stop k then ([DaemonEvent.alignCancelled k], true)
    else if attempt_succeeds env k then
      ([DaemonEvent.alignAttempt k, DaemonEvent.alignDone k], true)
    else
      let r := align_events env stop (k + 1) fuel
      (DaemonEvent.alignAttempt k :: r.1, r.2)

/-- Cycles of the periodic sync loop (`daemon.py` lines 156-161); `stop2 i`
is the `_stop` value at the top of cycle `i`. -/
def sync_events (stop2 : Nat → Bool) : Nat → Nat → List DaemonEvent
  | _, 0 => []
  | i, fuel + 1 =>
    if stop2 i then []
    else DaemonEvent.syncCycle i :: sync_events stop2 (i + 1) fuel

/-- Translation of `SyncDaemon.run` (`daemon.py` lines 148-162): it calls
`ensure_remote_ready()`, then — unconditionally, whatever made the alignment
loop exit — `link_and_track()`, then loops `pull_commit_push` while not
stopped.  There is no check between the two calls: when the alignment loop
exits because `_stop` was set, `run` still proceeds to `link_and_track`. -/
def run_trace (env : Nat → GitAttempt) (stop : Nat → Bool) (stop2 : Nat → Bool)
    (alignFuel syncFuel : Nat) : List DaemonEvent :=
  let r := align_events env stop 0 alignFuel
  if r.2 then r.1 ++ DaemonEvent.linkAndTrack :: sync_events stop2 0 syncFuel
  else r.1

/-- Environment for the claim C2 failing input: hashes never match. -/
def env2 : Nat → GitAttempt := fun _ =>
  { prepRaises := false, localHash := "", remoteHash := "", headRaises := false }

/-- Successful-alignment events. -/
def isAlignDone : DaemonEvent → Bool
  | DaemonEvent.alignDone _ => true
  | _ => false

/-- Claim C2 failing input evaluated: when cancellation is requested while
`ensure_remote_ready` is still aligning (here: before its first attempt)
and the local HEAD was never verified against the remote tip, the alignment
loop exits via its `while` guard, `ensure_remote_ready` returns normally and
`run` executes `link_and_track` anyway: the trace contains `linkAndTrack`
but no successful alignment event. -/
theorem c2_link_runs_without_alignment_on_cancel :
    run_trace env2 (fun _ => true) (fun _ => true) 5 5 =
      [DaemonEvent.alignCancelled 0, DaemonEvent.linkAndTrack] ∧
    DaemonEvent.linkAndTrack ∈ run_trace env2 (fun _ => true) (fun _ => true) 5 5 ∧
    (run_trace env2 (fun _ => true) (fun _ => true) 5 5).filter isAlignDone = [] := by
  refine ⟨by decide, ?_, by decide⟩
  rw [show run_trace env2 (fun _ => true) (fun _ => true) 5 5 =
      [DaemonEvent.alignCancelled 0, DaemonEvent.linkAndTrack] by decide]
  simp
